import Mathlib

/-!
Verification development for the predictme-agent-sdk trading core.

Shallow embedding of the SDK's pure logic, translated from the JavaScript
source:
  * `src/lib/nonce.js`    — file-backed sequence store (`NMload`, `NMnext`, `NMset`)
  * `src/lib/strategy.js` — grid selection reducers (`balanced`, `underdog`, `value`)
  * commentary module     — `validate`, `renderTemplate`, `qualityScore`
  * SDK client            — the `placeBet` submission/recovery flow

Strings are modelled as `List Char` (JS strings over UTF-16 units; every
literal involved is ASCII/BMP).  JS numbers appearing as parsed decimals are
modelled as `ℚ`; integer-valued quantities (nonces, scores) as `Int`/`Nat`.
-/

namespace PredictMe

/-- The character U+007B, written by codepoint. -/
def lbrace : Char := Char.ofNat 123

/-- The character U+007D, written by codepoint. -/
def rbrace : Char := Char.ofNat 125

/-- Whitespace as recognised by JS `trim` / `\s` on the ASCII range used here. -/
def jsWs (c : Char) : Bool :=
  c == ' ' || c == '\t' || c == '\n' || c == '\r' || c == '\x0b' || c == '\x0c'

/-- JS `String.prototype.trim`: strip whitespace at both ends. -/
def trimChars (s : List Char) : List Char :=
  ((s.dropWhile jsWs).reverse.dropWhile jsWs).reverse

/-- Decimal digits of a natural number, as characters. -/
def natToChars (n : Nat) : List Char := (Nat.repr n).toList

/-! ## Commentary validation (`validate` in the commentary module) -/

/-- Result shape of `validate`: `{ valid: boolean, error?: string }`. -/
structure VResult where
  valid : Bool
  error : Option (List Char)
deriving DecidableEq

/-- The fixed error text of the empty/whitespace-only branch of `validate`. -/
def msgRequired : List Char :=
  ("Commentary is required (min 20 chars).\n\nGood examples:\n  \"BTC testing $95k support with RSI at 28, expecting bounce to $97k\"\n  \"ETH breaking out of consolidation, volume spike confirms momentum\"\n\nBad examples (rejected):\n  \"bullish\" — too short/vague\n  \"going up\" — no reasoning").toList

/-- The error text of the too-short branch of `validate`, for trimmed length `n`. -/
def msgTooShort (n : Nat) : List Char :=
  ("Commentary too short (").toList ++ natToChars n
    ++ (" chars, min 20). Add more detail about WHY.").toList

/-- `validate(commentary)`: empty/whitespace-only is rejected with the fixed
message; trimmed length below `MIN_LENGTH = 20` is rejected with a message
carrying the offending length; anything else is valid (no maximum check). -/
def validate (c : List Char) : VResult :=
  if c = [] ∨ trimChars c = [] then ⟨false, some msgRequired⟩
  else if (trimChars c).length < 20 then
    ⟨false, some (msgTooShort (trimChars c).length)⟩
  else ⟨true, none⟩

/-! ## Template rendering (`renderTemplate` in the commentary module) -/

/-- The JS values a caller can put in a render context (the shapes that occur:
strings, numbers, `null`). -/
inductive JSVal where
  | str (s : List Char)
  | num (n : Int)
  | jnull
deriving DecidableEq

/-- JS truthiness of a context value: `''`, `0` and `null` are falsy. -/
def truthy : JSVal → Bool
  | .str s => !s.isEmpty
  | .num n => n != 0
  | .jnull => false

/-- JS string coercion of a context value (as applied by `replace`). -/
def jsToChars : JSVal → List Char
  | .str s => s
  | .num n => (toString n).toList
  | .jnull => ("null").toList

/-- The replacement text produced by `context.x || '?'`: the value's string
form when truthy, the literal `?` otherwise (missing or falsy). -/
def orQ (v : Option JSVal) : List Char :=
  match v with
  | some x => if truthy x then jsToChars x else ("?").toList
  | none => ("?").toList

/-- Render context: the six recognised fields, each possibly absent. -/
structure Ctx where
  round : Option JSVal
  price : Option JSVal
  asset : Option JSVal
  odds : Option JSVal
  gridLevel : Option JSVal
  strategy : Option JSVal
deriving DecidableEq

/-- The six placeholder markers, in the order the source replaces them. -/
inductive Marker where
  | round | price | asset | odds | gridLevel | strategy
deriving DecidableEq

/-- The name of a marker, as it appears between the braces. -/
def markerName : Marker → List Char
  | .round => ("round").toList
  | .price => ("price").toList
  | .asset => ("asset").toList
  | .odds => ("odds").toList
  | .gridLevel => ("gridLevel").toList
  | .strategy => ("strategy").toList

/-- Wrap a name in braces: the literal marker text. -/
def braced (n : List Char) : List Char := lbrace :: (n ++ [rbrace])

/-- The literal pattern a marker's regex (`/\{name\}/g`) matches. -/
def markerPat (m : Marker) : List Char := braced (markerName m)

/-- Field lookup on a context by marker. -/
def Ctx.get (c : Ctx) : Marker → Option JSVal
  | .round => c.round
  | .price => c.price
  | .asset => c.asset
  | .odds => c.odds
  | .gridLevel => c.gridLevel
  | .strategy => c.strategy

/-- Replace one marker's field in a context. -/
def Ctx.set (c : Ctx) (m : Marker) (v : Option JSVal) : Ctx :=
  match m with
  | .round => ⟨v, c.price, c.asset, c.odds, c.gridLevel, c.strategy⟩
  | .price => ⟨c.round, v, c.asset, c.odds, c.gridLevel, c.strategy⟩
  | .asset => ⟨c.round, c.price, v, c.odds, c.gridLevel, c.strategy⟩
  | .odds => ⟨c.round, c.price, c.asset, v, c.gridLevel, c.strategy⟩
  | .gridLevel => ⟨c.round, c.price, c.asset, c.odds, v, c.strategy⟩
  | .strategy => ⟨c.round, c.price, c.asset, c.odds, c.gridLevel, v⟩

/-- Scanning loop of a global literal replace, with decreasing fuel so the
recursion is structural; `fuel ≥ (input length)` always holds at the call
site, so the `0, s => s` fallback is never reached on a nonempty list. -/
def replaceAllGo (pat rep : List Char) : Nat → List Char → List Char
  | _, [] => []
  | 0, s => s
  | fuel + 1, c :: rest =>
    if pat ≠ [] ∧ pat <+: (c :: rest) then
      rep ++ replaceAllGo pat rep fuel (List.drop pat.length (c :: rest))
    else
      c :: replaceAllGo pat rep fuel rest

/-- A global regex replace of the literal pattern `pat` by `rep`: scan left to
right, replace each non-overlapping occurrence, continue after the inserted
replacement text (the replacement is not rescanned within one pass).  This is
`String.prototype.replace(/pat/g, rep)` for a replacement string containing no
`$` (the SDK substitutes values that are compared literally here; the `$`
escape forms of JS replacement strings are outside the inputs considered). -/
def replaceAll (pat rep s : List Char) : List Char :=
  replaceAllGo pat rep s.length s

/-- `renderTemplate(template, context)` from the commentary module: six global
replaces applied in the fixed order round, price, asset, odds, gridLevel,
strategy, then truncation to 500 characters; an empty template yields `''`. -/
def renderTemplate (t : List Char) (ctx : Ctx) : List Char :=
  if t = [] then []
  else
    List.take 500
      (replaceAll (markerPat .strategy) (orQ ctx.strategy)
        (replaceAll (markerPat .gridLevel) (orQ ctx.gridLevel)
          (replaceAll (markerPat .odds) (orQ ctx.odds)
            (replaceAll (markerPat .asset) (orQ ctx.asset)
              (replaceAll (markerPat .price) (orQ ctx.price)
                (replaceAll (markerPat .round) (orQ ctx.round) t))))))

/-- The order in which `renderTemplate` processes the six markers. -/
def markerOrder : List Marker :=
  [.round, .price, .asset, .odds, .gridLevel, .strategy]

/-- Spec reading of `render`: a single simultaneous pass over the original
template, substituting each occurrence of a recognised marker by its context
value (or `?`), copying all other text — hence unknown markers — verbatim.
Stated from the specification's words, for comparison with the sequential
`renderTemplate` of the source. -/
def renderSpecGo (ctx : Ctx) : Nat → List Char → List Char
  | _, [] => []
  | 0, s => s
  | fuel + 1, c :: rest =>
    match markerOrder.find? (fun m => (markerPat m).isPrefixOf (c :: rest)) with
    | some m =>
        orQ (Ctx.get ctx m)
          ++ renderSpecGo ctx fuel (List.drop ((markerPat m).length - 1) rest)
    | none => c :: renderSpecGo ctx fuel rest

/-- Spec reading of `render` (entry point): substitute on the original
template in one pass, then truncation is applied by the caller. -/
def renderSpec (s : List Char) (ctx : Ctx) : List Char := renderSpecGo ctx s.length s

/-- Token view of a template: a literal run, a recognised marker, or an
unknown marker. -/
inductive Tok where
  | lit (s : List Char)
  | mark (m : Marker)
  | unk (n : List Char)

/-- The raw text of a token. -/
def Tok.flat : Tok → List Char
  | .lit s => s
  | .mark m => markerPat m
  | .unk n => braced n

/-- Concatenation of a token list's raw text: the template it denotes. -/
def flatToks (ts : List Tok) : List Char := (ts.map Tok.flat).flatten

/-- Substitution state after the markers in `done` have been processed:
processed markers show their value, the rest still show their raw text. -/
def substUpTo (done : List Marker) (ctx : Ctx) : Tok → List Char
  | .lit s => s
  | .mark m => if m ∈ done then orQ (Ctx.get ctx m) else markerPat m
  | .unk n => braced n

/-- Full simultaneous substitution of a token. -/
def substTok (ctx : Ctx) : Tok → List Char
  | .lit s => s
  | .mark m => orQ (Ctx.get ctx m)
  | .unk n => braced n

/-- Well-formedness of a token: literal runs contain no opening brace, and an
unknown marker has a nonempty brace-free name distinct from the six. -/
def TokOK : Tok → Prop
  | .lit s => lbrace ∉ s
  | .mark _ => True
  | .unk n => n ≠ [] ∧ lbrace ∉ n ∧ rbrace ∉ n ∧ ∀ m : Marker, n ≠ markerName m

/-- A replacement value that cannot interfere with later passes: it contains
no brace (so it can neither be nor begin a marker) and no dollar sign (so JS
replacement-string escapes do not apply). -/
def plainVal (v : List Char) : Prop := lbrace ∉ v ∧ rbrace ∉ v ∧ '$' ∉ v

/-- A context all of whose replacement texts are plain. -/
def ctxOK (ctx : Ctx) : Prop := ∀ m : Marker, plainVal (orQ (Ctx.get ctx m))

/-! ## Quality scoring (`qualityScore` in the commentary module) -/

/-- Lowercasing as used by `toLowerCase` on the ASCII range. -/
def toLowerL (s : List Char) : List Char := s.map Char.toLower

/-- The fixed technical-terms set (28 entries, insertion order of the source). -/
def technicalTerms : List (List Char) :=
  [("rsi").toList, ("macd").toList, ("ema").toList, ("sma").toList,
   ("bollinger").toList, ("fibonacci").toList, ("fib").toList,
   ("support").toList, ("resistance").toList, ("breakout").toList,
   ("breakdown").toList, ("divergence").toList, ("oversold").toList,
   ("overbought").toList, ("volume").toList, ("momentum").toList,
   ("trend").toList, ("bullish").toList, ("bearish").toList,
   ("consolidation").toList, ("reversal").toList, ("wedge").toList,
   ("channel").toList, ("moving average").toList, ("funding rate").toList,
   ("open interest").toList, ("liquidation").toList, ("whale").toList,
   ("accumulation").toList, ("distribution").toList]

/-- JS `text.split(/\s+/)` for a string with no leading or trailing
whitespace (the call site splits the trimmed text): maximal non-whitespace
runs, except that the empty string yields `[""]`. -/
def jsSplitWs (s : List Char) : List (List Char) :=
  if s = [] then [[]] else (s.splitOnP jsWs).filter (fun w => w ≠ [])

/-- Length component of the quality score (0-50 by trimmed length). -/
def lengthScore (n : Nat) : Nat :=
  if n ≥ 200 then 50
  else if n ≥ 100 then 40
  else if n ≥ 60 then 30
  else if n ≥ 40 then 20
  else 10

/-- Lexical-diversity component (0-25 by number of unique lowercased words). -/
def uniqueScore (u : Nat) : Nat :=
  if u ≥ 25 then 25 else if u ≥ 15 then 20 else if u ≥ 10 then 10 else 0

/-- Domain-vocabulary component (0-25 by number of matched technical terms). -/
def termScore (t : Nat) : Nat :=
  if t ≥ 4 then 25 else if t ≥ 2 then 15 else if t ≥ 1 then 5 else 0

/-- JS `String.prototype.includes`: does `t` occur contiguously in `s`? -/
def isSubL (t : List Char) : List Char → Bool
  | [] => t.isEmpty
  | c :: rest => t.isPrefixOf (c :: rest) || isSubL t rest

/-- Number of technical terms occurring (substring match) in the lowercased
text, each term counted once. -/
def termCount (lower : List Char) : Nat :=
  (technicalTerms.filter (fun t => isSubL t lower)).length

/-- `qualityScore(commentary)`: 0 for an empty string, otherwise the sum of
the three components over the trimmed text, clamped to 100. -/
def qualityScore (c : List Char) : Nat :=
  if c = [] then 0
  else
    let text := trimChars c
    min 100
      (lengthScore text.length
        + uniqueScore ((jsSplitWs (toLowerL text)).dedup.length
          )
        + termScore (termCount (toLowerL text)))

/-! ## Grid selection strategies (`src/lib/strategy.js`) -/

/-- A grid (priced bucket) as returned by the odds endpoint; the decimal
string fields are modelled by the rationals they parse to. -/
structure Grid where
  gridIdStr : List Char
  strikePriceMin : ℚ
  strikePriceMax : ℚ
  odds : ℚ
  impliedProbability : ℚ
  expiryAt : Int
deriving DecidableEq

/-- `grids.reduce((best, g) => key g < key best ? g : best, acc)`. -/
def selMin (key : Grid → ℚ) (acc : Grid) (l : List Grid) : Grid :=
  List.foldl (fun best g => if key g < key best then g else best) acc l

/-- `grids.reduce((best, g) => key g > key best ? g : best, acc)`. -/
def selMax (key : Grid → ℚ) (acc : Grid) (l : List Grid) : Grid :=
  List.foldl (fun best g => if key g > key best then g else best) acc l

/-- The `balanced` comparison key: `Math.abs(impliedProbability - 0.5)`. -/
def diffHalf (g : Grid) : ℚ := |g.impliedProbability - 1/2|

/-- The `value` comparison key: `odds * impliedProbability`. -/
def evKey (g : Grid) : ℚ := g.odds * g.impliedProbability

/-- `balanced(grids)`: reduce over the whole array seeded with `grids[0]`,
keeping the grid whose implied probability is strictly closer to 0.5. -/
def balanced : List Grid → Option Grid
  | [] => none
  | g :: gs => some (selMin diffHalf g (g :: gs))

/-- `underdog(grids)`: the grid with strictly greatest odds, first wins ties. -/
def underdog : List Grid → Option Grid
  | [] => none
  | g :: gs => some (selMax Grid.odds g (g :: gs))

/-- `value(grids)`: the grid with strictly greatest `odds × impliedProbability`. -/
def value : List Grid → Option Grid
  | [] => none
  | g :: gs => some (selMax evKey g (g :: gs))

/-! ## Nonce store (`src/lib/nonce.js`) -/

/-- The nonce file: its contents (absent = reads throw) and whether writes
succeed (false = writes throw and are swallowed by `_save`). -/
structure FS where
  contents : Option (List Char)
  writeOk : Bool
deriving DecidableEq

/-- In-memory state of a `NonceManager`: the cached `_value`. -/
structure NSt where
  value : Option Int
deriving DecidableEq

/-- Decimal string of an integer (JS `String(n)`). -/
def intToChars (n : Int) : List Char := (toString n).toList

/-- Value of a digit run (radix 10). -/
def digitsToNat (ds : List Char) : Nat :=
  ds.foldl (fun a c => a * 10 + (c.toNat - 48)) 0

/-- JS `parseInt(s, 10)`: skip leading whitespace, optional sign, then the
longest run of decimal digits; `none` models `NaN` (no digits). -/
def parseIntJS (s : List Char) : Option Int :=
  match s.dropWhile jsWs with
  | [] => none
  | c :: rest =>
    if c = '-' then
      let ds := rest.takeWhile Char.isDigit
      if ds = [] then none else some (-(digitsToNat ds : Int))
    else if c = '+' then
      let ds := rest.takeWhile Char.isDigit
      if ds = [] then none else some ((digitsToNat ds : Int))
    else
      let ds := (c :: rest).takeWhile Char.isDigit
      if ds = [] then none else some ((digitsToNat ds : Int))

/-- Result of `load()`: the returned value and the updated manager state. -/
structure LoadRes where
  v : Int
  st : NSt
deriving DecidableEq

/-- `load()`: return the cached value if set; otherwise read the file and take
`parseInt(raw.trim(), 10) || Date.now()` (so `NaN` and `0` both fall back to
the time seed `now`), or `Date.now()` when the read throws (no file). -/
def NMload (st : NSt) (fs : FS) (now : Int) : LoadRes :=
  match st.value with
  | some v => ⟨v, st⟩
  | none =>
    match fs.contents with
    | none => ⟨now, ⟨some now⟩⟩
    | some raw =>
      let v :=
        match parseIntJS (trimChars raw) with
        | some n => if n = 0 then now else n
        | none => now
      ⟨v, ⟨some v⟩⟩

/-- `_save()`: best-effort write of the decimal value; a failing write leaves
the file unchanged and raises nothing. -/
def NMsave (st : NSt) (fs : FS) : FS :=
  if fs.writeOk then
    ⟨some (match st.value with
           | some v => intToChars v
           | none => ("null").toList), fs.writeOk⟩
  else fs

/-- Result of `next()`: returned nonce, manager state, file state. -/
structure NextRes where
  n : Int
  st : NSt
  fs : FS
deriving DecidableEq

/-- `next()`: `load() + 1`, cache it, save it, return it. -/
def NMnext (st : NSt) (fs : FS) (now : Int) : NextRes :=
  let r := NMload st fs now
  let st' : NSt := ⟨some (r.v + 1)⟩
  ⟨r.v + 1, st', NMsave st' fs⟩

/-- `set(value)`: force the cached value and save it. -/
def NMset (v : Int) (fs : FS) : NSt × FS :=
  (⟨some v⟩, NMsave ⟨some v⟩ fs)

/-! ## Bet submission (`placeBet` of the SDK client) -/

/-- Body of an HTTP error as far as `placeBet` inspects it: the optional
`expectedNonce` field and the rest of the payload. -/
structure ErrBody where
  expectedNonce : Option Int
  message : List Char
deriving DecidableEq

/-- Outcome of one `POST /bet` round-trip. -/
inductive HttpRes where
  | ok (orderId : Int)
  | err (e : ErrBody)
deriving DecidableEq

/-- An error surfaced by `placeBet`: a locally thrown `Error(message)` or a
remote rejection rethrown with its body. -/
inductive PBErr where
  | localMsg (m : List Char)
  | remote (e : ErrBody)
deriving DecidableEq

/-- Result of `placeBet`: the resolved order id or the surfaced error. -/
inductive PBResult where
  | ok (orderId : Int)
  | error (e : PBErr)
deriving DecidableEq

/-- Observable outcome of `placeBet`: the result, the nonces of the requests
actually sent (in order), and the final nonce-store state. -/
structure PBOut where
  result : PBResult
  sent : List Int
  st : NSt
  fs : FS
deriving DecidableEq

/-- The disallowed balance-pool tag. -/
def realTag : List Char := ("REAL").toList

/-- The message thrown for the disallowed tag. -/
def realMsg : List Char :=
  ("Agents cannot use REAL balance. Use TEST or BONUS.").toList

/-- `placeBet`: validate the commentary, reject the `REAL` pool, obtain a
nonce, submit; on an error whose body carries `expectedNonce`, `set` the store
to it, obtain one fresh nonce and resubmit once, returning that second
outcome as is; any other error is rethrown unchanged.  The remote boundary is
a function from (call index, nonce sent) to the response. -/
def placeBet (balanceType commentary : List Char) (st : NSt) (fs : FS)
    (now : Int) (server : Nat → Int → HttpRes) : PBOut :=
  let v := validate commentary
  if v.valid = false then
    ⟨PBResult.error (PBErr.localMsg (v.error.getD [])), [], st, fs⟩
  else if balanceType = realTag then
    ⟨PBResult.error (PBErr.localMsg realMsg), [], st, fs⟩
  else
    let r₁ := NMnext st fs now
    match server 0 r₁.n with
    | HttpRes.ok oid => ⟨PBResult.ok oid, [r₁.n], r₁.st, r₁.fs⟩
    | HttpRes.err e =>
      match e.expectedNonce with
      | some k =>
        let sf := NMset k r₁.fs
        let r₂ := NMnext sf.1 sf.2 now
        match server 1 r₂.n with
        | HttpRes.ok oid => ⟨PBResult.ok oid, [r₁.n, r₂.n], r₂.st, r₂.fs⟩
        | HttpRes.err e2 =>
            ⟨PBResult.error (PBErr.remote e2), [r₁.n, r₂.n], r₂.st, r₂.fs⟩
      | none => ⟨PBResult.error (PBErr.remote e), [r₁.n], r₁.st, r₁.fs⟩

/-! ## Concrete instances used by witnesses and counterexamples -/

/-- The spec example's context: only `asset` present, bound to `"BTC"`. -/
def exCtx : Ctx := ⟨none, none, some (JSVal.str (("BTC").toList)), none, none, none⟩

/-- The spec example's template, `"{asset} at {price}"`. -/
def exT : List Char := ("\x7basset\x7d at \x7bprice\x7d").toList

/-- Token view of the example template. -/
def exToks : List Tok :=
  [Tok.mark Marker.asset, Tok.lit ((" at ").toList), Tok.mark Marker.price]

/-- Context of the render counterexample: `round` bound to the string `"c"`. -/
def cexCtx : Ctx := ⟨some (JSVal.str (("c").toList)), none, none, none, none, none⟩

/-- Template of the render counterexample, `"{pri{round}e}"`: substituting
`round` by `"c"` assembles the later marker `"{price}"`. -/
def cexT : List Char := ("\x7bpri\x7bround\x7de\x7d").toList

/-- Shape of one concatenation chunk as seen by a single replace pass for the
pattern `braced pname`: the pattern itself, a brace-free run, or a different
marker-shaped run. -/
def chunkOK (pname c : List Char) : Prop :=
  c = braced pname ∨ lbrace ∉ c ∨
    ∃ n, c = braced n ∧ n ≠ pname ∧ lbrace ∉ n ∧ rbrace ∉ n

/-- Quality-score counterexample, short text: 45 trimmed characters, few
unique words but seven technical terms. -/
def cexA : List Char := ("rsi macd ema sma bollinger support resistance").toList

/-- Quality-score counterexample, longer text in the same length bracket: 59
trimmed characters, one unique word, no technical term. -/
def cexB : List Char :=
  ("aa aa aa aa aa aa aa aa aa aa aa aa aa aa aa aa aa aa aa aa").toList

/-- A concrete grid with implied probability 1/4. -/
def gA : Grid := ⟨("g1").toList, 0, 1, 2, 1/4, 0⟩

/-- A concrete grid with implied probability 1/2. -/
def gB : Grid := ⟨("g2").toList, 1, 2, 3, 1/2, 0⟩

/-- A remote boundary answering the first submission with a conflict carrying
`expectedNonce = 42` and every later submission with a plain error. -/
def wServer : Nat → Int → HttpRes := fun i _ =>
  if i = 0 then HttpRes.err ⟨some 42, []⟩
  else HttpRes.err ⟨none, ("conflict").toList⟩

/-- A commentary that passes validation (37 trimmed characters). -/
def wCom : List Char := ("BTC testing support, RSI low, rebound").toList

/-- The TEST balance-pool tag. -/
def wBt : List Char := ("TEST").toList

/-! ## Sequence store: loading a persisted value (claim C2) -/

/-- Claim C2, amended: a persisted file parsing to a nonzero integer `v` makes
the first `load()` return exactly `v`; with no file the time seed is
returned.  (The unamended claim fails at `v = 0`, see the counterexample.) -/
theorem C2_load_persisted :
    (∀ (raw : List Char) (wOk : Bool) (now v : Int),
        parseIntJS (trimChars raw) = some v → v ≠ 0 →
        (NMload ⟨none⟩ ⟨some raw, wOk⟩ now).v = v)
    ∧ (∀ (wOk : Bool) (now : Int), (NMload ⟨none⟩ ⟨none, wOk⟩ now).v = now) := by
  constructor
  · intro raw wOk now v hp hv
    simp [NMload, hp, hv]
  · intro wOk now
    simp [NMload]

/-- Witness for C2: a file holding `"42"` loads as `42`. -/
theorem C2_witness :
    parseIntJS (trimChars (("42").toList)) = some 42 ∧ (42 : Int) ≠ 0 ∧
    (NMload ⟨none⟩ ⟨some (("42").toList), true⟩ 999).v = 42 :=
  ⟨by decide, by decide,
    C2_load_persisted.1 (("42").toList) true 999 42 (by decide) (by decide)⟩

/-- Counterexample for C2 as stated: a file holding the integer `0` does not
load as `0` — the falsy parse result falls back to the time seed. -/
theorem C2_cex :
    parseIntJS (trimChars (("0").toList)) = some 0
    ∧ (NMload ⟨none⟩ ⟨some (("0").toList), true⟩ 999).v = 999
    ∧ (NMload ⟨none⟩ ⟨some (("0").toList), true⟩ 999).v ≠ 0 := by decide

/-! ## Sequence store: advancing a fresh store (claim C3) -/

/-- Claim C3: on a fresh store with no prior file, two consecutive `next()`
calls return `seed+1` then `seed+2` for the seed obtained at first load; each
call persists when writes succeed, and a failing persist changes nothing and
raises nothing (the returned values are the same either way). -/
theorem C3_fresh_advance (now now' : Int) (wOk : Bool) :
    (NMnext ⟨none⟩ ⟨none, wOk⟩ now).n = now + 1
    ∧ (NMnext (NMnext ⟨none⟩ ⟨none, wOk⟩ now).st
        (NMnext ⟨none⟩ ⟨none, wOk⟩ now).fs now').n = now + 2
    ∧ (NMnext (NMnext ⟨none⟩ ⟨none, wOk⟩ now).st
        (NMnext ⟨none⟩ ⟨none, wOk⟩ now).fs now').st.value = some (now + 2)
    ∧ (NMnext ⟨none⟩ ⟨none, wOk⟩ now).fs.contents
        = (if wOk then some (intToChars (now + 1)) else none)
    ∧ (NMnext (NMnext ⟨none⟩ ⟨none, wOk⟩ now).st
        (NMnext ⟨none⟩ ⟨none, wOk⟩ now).fs now').fs.contents
        = (if wOk then some (intToChars (now + 2)) else none) := by
  have h2 : now + 1 + 1 = now + 2 := by ring
  cases wOk <;> simp [NMnext, NMload, NMsave, h2]

/-! ## Submission guard: the REAL pool is rejected locally (claim C4) -/

/-- Claim C4: with the disallowed `REAL` tag, `placeBet` fails before any
network call and before any token is consumed — no request is sent and both
the in-memory store and the file are unchanged. -/
theorem C4_real_rejected (c : List Char) (st : NSt) (fs : FS) (now : Int)
    (server : Nat → Int → HttpRes) :
    (placeBet realTag c st fs now server).sent = []
    ∧ (placeBet realTag c st fs now server).st = st
    ∧ (placeBet realTag c st fs now server).fs = fs
    ∧ ∃ m, (placeBet realTag c st fs now server).result
        = PBResult.error (PBErr.localMsg m) := by
  by_cases h : (validate c).valid = false
  · simp [placeBet, h]
  · simp [placeBet, h]

/-! ## Submission recovery protocol (claim C1) -/

/-- Claim C1: when the first submission fails with a body carrying
`expectedNonce = k`, the store is reset and exactly one resubmission is sent
with token `k + 1`; a second failure is surfaced as is, with no further
request.  An error body without `expectedNonce` is surfaced unmodified after
the single original request. -/
theorem C1_conflict_recovery (bt c : List Char) (st : NSt) (fs : FS) (now : Int)
    (server : Nat → Int → HttpRes) (e : ErrBody) (k : Int)
    (hval : (validate c).valid = true) (hbt : bt ≠ realTag)
    (hfail : server 0 (NMnext st fs now).n = HttpRes.err e) :
    (e.expectedNonce = some k →
        (placeBet bt c st fs now server).sent = [(NMnext st fs now).n, k + 1]
        ∧ (placeBet bt c st fs now server).st.value = some (k + 1)
        ∧ (∀ oid, server 1 (k + 1) = HttpRes.ok oid →
            (placeBet bt c st fs now server).result = PBResult.ok oid)
        ∧ (∀ e2, server 1 (k + 1) = HttpRes.err e2 →
            (placeBet bt c st fs now server).result
              = PBResult.error (PBErr.remote e2)))
    ∧ (e.expectedNonce = none →
        (placeBet bt c st fs now server).result = PBResult.error (PBErr.remote e)
        ∧ (placeBet bt c st fs now server).sent = [(NMnext st fs now).n]) := by
  have hv' : ¬ ((validate c).valid = false) := by simp [hval]
  obtain ⟨en, emsg⟩ := e
  constructor
  · intro hk
    have hen : en = some k := hk
    subst hen
    have key : placeBet bt c st fs now server =
        (match server 1 (k + 1) with
         | HttpRes.ok oid =>
             ⟨PBResult.ok oid, [(NMnext st fs now).n, k + 1], ⟨some (k + 1)⟩,
               NMsave ⟨some (k + 1)⟩ (NMset k (NMnext st fs now).fs).2⟩
         | HttpRes.err e2 =>
             ⟨PBResult.error (PBErr.remote e2), [(NMnext st fs now).n, k + 1],
               ⟨some (k + 1)⟩,
               NMsave ⟨some (k + 1)⟩ (NMset k (NMnext st fs now).fs).2⟩) := by
      simp only [placeBet]
      rw [if_neg hv', if_neg hbt]
      simp only [hfail]
      rfl
    rcases hsrv : server 1 (k + 1) with oid | e2
    · rw [key, hsrv]
      refine ⟨rfl, rfl, ?_, ?_⟩
      · intro oid' h
        injection h with h'
        rw [h']
      · intro e2' h
        cases h
    · rw [key, hsrv]
      refine ⟨rfl, rfl, ?_, ?_⟩
      · intro oid' h
        cases h
      · intro e2' h
        injection h with h'
        rw [h']
  · intro hk
    have hen : en = none := hk
    subst hen
    have key2 : placeBet bt c st fs now server =
        ⟨PBResult.error (PBErr.remote ⟨none, emsg⟩), [(NMnext st fs now).n],
          (NMnext st fs now).st, (NMnext st fs now).fs⟩ := by
      simp only [placeBet]
      rw [if_neg hv', if_neg hbt]
      simp only [hfail]
    rw [key2]
    exact ⟨rfl, rfl⟩

/-- Witness for C1: with current token 5 and a server declaring
`expectedNonce = 42`, the retry goes out with token 43 and its failure is
surfaced. -/
theorem C1_witness :
    (placeBet wBt wCom ⟨some 5⟩ ⟨none, true⟩ 0 wServer).sent = [6, 43]
    ∧ (placeBet wBt wCom ⟨some 5⟩ ⟨none, true⟩ 0 wServer).st.value = some 43
    ∧ (placeBet wBt wCom ⟨some 5⟩ ⟨none, true⟩ 0 wServer).result
        = PBResult.error (PBErr.remote ⟨none, ("conflict").toList⟩) := by
  have H := (C1_conflict_recovery wBt wCom ⟨some 5⟩ ⟨none, true⟩ 0 wServer
      ⟨some 42, []⟩ 42 (by decide) (by decide) (by decide)).1 rfl
  obtain ⟨h1, h2, _, h4⟩ := H
  exact ⟨h1.trans (by decide), h2.trans (by decide),
    h4 ⟨none, ("conflict").toList⟩ (by decide)⟩

/-! ## Commentary validation behaviour (claim C7) -/

/-- Claim C7: `validate` rejects exactly the texts whose trimmed length is
below 20 (empty/whitespace-only texts trim to length 0), every rejection
message contains both the offending trimmed length and the minimum 20 as
substrings, and any trimmed length of at least 20 is accepted — there is no
maximum-length rejection. -/
theorem C7_validate (c : List Char) :
    ((validate c).valid = false ↔ (trimChars c).length < 20)
    ∧ ((validate c).valid = false →
        ∃ m, (validate c).error = some m
          ∧ natToChars ((trimChars c).length) <:+: m
          ∧ ("20").toList <:+: m)
    ∧ (20 ≤ (trimChars c).length → validate c = ⟨true, none⟩) := by
  by_cases h0 : c = [] ∨ trimChars c = []
  · have ht : trimChars c = [] := by
      rcases h0 with rfl | h
      · rfl
      · exact h
    refine ⟨by simp [validate, h0, ht], fun _ => ⟨msgRequired, ?_, ?_, ?_⟩, ?_⟩
    · simp [validate, h0]
    · rw [ht]
      decide
    · decide
    · intro hlen
      rw [ht] at hlen
      simp at hlen
  · by_cases h1 : (trimChars c).length < 20
    · refine ⟨by simp [validate, h0, h1],
        fun _ => ⟨msgTooShort (trimChars c).length, ?_, ?_, ?_⟩, ?_⟩
      · simp [validate, h0, h1]
      · exact ⟨("Commentary too short (").toList,
          (" chars, min 20). Add more detail about WHY.").toList, rfl⟩
      · have h20 : ("20").toList
            <:+: (" chars, min 20). Add more detail about WHY.").toList := by
          decide
        have hsuf : (" chars, min 20). Add more detail about WHY.").toList
            <:+: msgTooShort ((trimChars c).length) :=
          ⟨("Commentary too short (").toList ++ natToChars ((trimChars c).length),
            [], by simp [msgTooShort]⟩
        exact h20.trans hsuf
      · intro hlen
        omega
    · refine ⟨by simp [validate, h0, h1], ?_, ?_⟩
      · intro hv
        simp [validate, h0, h1] at hv
      · intro _
        simp [validate, h0, h1]

/-- Witness for C7: `validate("bullish")` fails with a message carrying the
offending length 7 and the minimum 20, and a 37-character commentary passes. -/
theorem C7_witness :
    (validate (("bullish").toList)).valid = false
    ∧ (validate (("bullish").toList)).error = some (msgTooShort 7)
    ∧ natToChars 7 <:+: msgTooShort 7
    ∧ ("20").toList <:+: msgTooShort 7
    ∧ validate wCom = ⟨true, none⟩ := by
  obtain ⟨m, h1, h2, h3⟩ := (C7_validate (("bullish").toList)).2.1 (by decide)
  have h1' : some (msgTooShort 7) = some m := by
    rw [← h1]
    decide
  have hm : m = msgTooShort 7 := (Option.some.inj h1').symm
  subst hm
  exact ⟨(C7_validate (("bullish").toList)).1.mpr (by decide), h1, h2, h3,
    (C7_validate wCom).2.2 (by decide)⟩

/-! ## Quality score (claim C9) -/

/-- Claim C9, amended: the score is always in `[0, 100]` (the three-component
sum is clamped at 100 and the score is a natural number), and the length
component alone is monotonically non-decreasing in trimmed length, hence
constant within each length bracket; the full score is not monotone within a
bracket because the diversity and vocabulary components vary independently
(see the counterexample). -/
theorem C9_score_bounds :
    (∀ c : List Char, qualityScore c ≤ 100)
    ∧ (∀ n m : Nat, n ≤ m → lengthScore n ≤ lengthScore m) := by
  constructor
  · intro c
    by_cases h : c = [] <;> simp [qualityScore, h]
  · intro n m h
    unfold lengthScore
    split_ifs <;> omega

/-- Witness for C9: the bound and the length-component monotonicity at
concrete inputs. -/
theorem C9_witness : qualityScore cexA ≤ 100 ∧ lengthScore 45 ≤ lengthScore 59 :=
  ⟨C9_score_bounds.1 cexA, C9_score_bounds.2 45 59 (by decide)⟩

/-- Counterexample for C9 as stated: two texts in the same length bracket
(trimmed lengths 45 and 59, both in `[40, 60)`) where the longer text scores
strictly lower — the full score is not monotone in trimmed length within a
bracket. -/
theorem C9_cex :
    (trimChars cexA).length = 45 ∧ (trimChars cexB).length = 59
    ∧ qualityScore cexA = 45 ∧ qualityScore cexB = 20
    ∧ qualityScore cexB < qualityScore cexA := by
  refine ⟨by decide, by decide, ?_, ?_, ?_⟩ <;> decide

/-! ## Strategy reducers: fold characterisation (claims C5 and C6) -/

/-- Characterisation of the strict-minimum fold: the result never exceeds the
seed or any list element, and it is either the seed itself or the first list
element strictly better than the seed and everything before it. -/
theorem selMin_spec (key : Grid → ℚ) :
    ∀ (l : List Grid) (acc : Grid),
      (key (selMin key acc l) ≤ key acc ∧ ∀ x ∈ l, key (selMin key acc l) ≤ key x)
      ∧ (selMin key acc l = acc ∨
          ∃ l₁ l₂, l = l₁ ++ selMin key acc l :: l₂
            ∧ key (selMin key acc l) < key acc
            ∧ ∀ x ∈ l₁, key (selMin key acc l) < key x) := by
  intro l
  induction l with
  | nil => intro acc; simp [selMin]
  | cons a l ih =>
    intro acc
    have hstep : selMin key acc (a :: l)
        = selMin key (if key a < key acc then a else acc) l := rfl
    by_cases hc : key a < key acc
    · rw [hstep, if_pos hc]
      obtain ⟨⟨hle, hall⟩, hpos⟩ := ih a
      refine ⟨⟨(hle.trans_lt hc).le, ?_⟩, ?_⟩
      · intro x hx
        rcases List.mem_cons.mp hx with rfl | hx'
        · exact hle
        · exact hall x hx'
      · rcases hpos with heq | ⟨l₁, l₂, hdec, hlt, hfirst⟩
        · right
          exact ⟨[], l, by rw [heq]; rfl, by rw [heq]; exact hc, by simp⟩
        · right
          refine ⟨a :: l₁, l₂, by rw [List.cons_append, ← hdec], hlt.trans hc, ?_⟩
          intro x hx
          rcases List.mem_cons.mp hx with rfl | hx'
          · exact hlt
          · exact hfirst x hx'
    · rw [hstep, if_neg hc]
      obtain ⟨⟨hle, hall⟩, hpos⟩ := ih acc
      have hac : key acc ≤ key a := not_lt.mp hc
      refine ⟨⟨hle, ?_⟩, ?_⟩
      · intro x hx
        rcases List.mem_cons.mp hx with rfl | hx'
        · exact hle.trans hac
        · exact hall x hx'
      · rcases hpos with heq | ⟨l₁, l₂, hdec, hlt, hfirst⟩
        · left
          exact heq
        · right
          refine ⟨a :: l₁, l₂, by rw [List.cons_append, ← hdec], hlt, ?_⟩
          intro x hx
          rcases List.mem_cons.mp hx with rfl | hx'
          · exact hlt.trans_le hac
          · exact hfirst x hx'

/-- Characterisation of the strict-maximum fold, mirror of `selMin_spec`. -/
theorem selMax_spec (key : Grid → ℚ) :
    ∀ (l : List Grid) (acc : Grid),
      (key acc ≤ key (selMax key acc l) ∧ ∀ x ∈ l, key x ≤ key (selMax key acc l))
      ∧ (selMax key acc l = acc ∨
          ∃ l₁ l₂, l = l₁ ++ selMax key acc l :: l₂
            ∧ key acc < key (selMax key acc l)
            ∧ ∀ x ∈ l₁, key x < key (selMax key acc l)) := by
  intro l
  induction l with
  | nil => intro acc; simp [selMax]
  | cons a l ih =>
    intro acc
    have hstep : selMax key acc (a :: l)
        = selMax key (if key a > key acc then a else acc) l := rfl
    by_cases hc : key a > key acc
    · rw [hstep, if_pos hc]
      obtain ⟨⟨hle, hall⟩, hpos⟩ := ih a
      refine ⟨⟨(hc.trans_le hle).le, ?_⟩, ?_⟩
      · intro x hx
        rcases List.mem_cons.mp hx with rfl | hx'
        · exact hle
        · exact hall x hx'
      · rcases hpos with heq | ⟨l₁, l₂, hdec, hlt, hfirst⟩
        · right
          exact ⟨[], l, by rw [heq]; rfl, by rw [heq]; exact hc, by simp⟩
        · right
          refine ⟨a :: l₁, l₂, by rw [List.cons_append, ← hdec], hc.trans hlt, ?_⟩
          intro x hx
          rcases List.mem_cons.mp hx with rfl | hx'
          · exact hlt
          · exact hfirst x hx'
    · rw [hstep, if_neg hc]
      obtain ⟨⟨hle, hall⟩, hpos⟩ := ih acc
      have hac : key a ≤ key acc := not_lt.mp hc
      refine ⟨⟨hle, ?_⟩, ?_⟩
      · intro x hx
        rcases List.mem_cons.mp hx with rfl | hx'
        · exact hac.trans hle
        · exact hall x hx'
      · rcases hpos with heq | ⟨l₁, l₂, hdec, hlt, hfirst⟩
        · left
          exact heq
        · right
          refine ⟨a :: l₁, l₂, by rw [List.cons_append, ← hdec], hlt, ?_⟩
          intro x hx
          rcases List.mem_cons.mp hx with rfl | hx'
          · exact hac.trans_lt hlt
          · exact hfirst x hx'

/-- The maximum fold over a nonempty list seeded with its head: the result is
a member, dominates every member, and every member before it is strictly
smaller. -/
theorem selMax_head (key : Grid → ℚ) (g : Grid) (gs : List Grid) :
    selMax key g (g :: gs) ∈ g :: gs
    ∧ (∀ x ∈ g :: gs, key x ≤ key (selMax key g (g :: gs)))
    ∧ ∃ l₁ l₂, g :: gs = l₁ ++ selMax key g (g :: gs) :: l₂
        ∧ ∀ x ∈ l₁, key x < key (selMax key g (g :: gs)) := by
  obtain ⟨⟨_, hall⟩, hpos⟩ := selMax_spec key (g :: gs) g
  rcases hpos with heq | ⟨l₁, l₂, hdec, _, hfirst⟩
  · exact ⟨by rw [heq]; exact List.mem_cons_self g gs, hall,
      ⟨[], gs, by rw [heq]; rfl, by simp⟩⟩
  · refine ⟨?_, hall, ⟨l₁, l₂, hdec, hfirst⟩⟩
    have hm : selMax key g (g :: gs) ∈ l₁ ++ selMax key g (g :: gs) :: l₂ :=
      List.mem_append_right l₁ (List.mem_cons_self _ _)
    rwa [← hdec] at hm

/-- Two maximal members of permuted lists with key-distinct members are the
same member. -/
theorem argmax_unique (key : Grid → ℚ) (l l' : List Grid) (hp : l.Perm l')
    (hn : (l.map key).Nodup) (b b' : Grid) (hb : b ∈ l) (hb' : b' ∈ l')
    (hmax : ∀ x ∈ l, key x ≤ key b) (hmax' : ∀ x ∈ l', key x ≤ key b') :
    b = b' := by
  have hb'l : b' ∈ l := hp.symm.subset hb'
  have h1 : key b ≤ key b' := hmax' b (hp.subset hb)
  have h2 : key b' ≤ key b := hmax b' hb'l
  exact List.inj_on_of_nodup_map hn hb hb'l (le_antisymm h1 h2)

/-- Permutation invariance of a head-seeded maximum fold selection, for any
selector agreeing with `selMax` on nonempty lists, under key-distinctness. -/
theorem selMax_perm (key : Grid → ℚ) (sel : List Grid → Option Grid)
    (hsel : ∀ g gs, sel (g :: gs) = some (selMax key g (g :: gs))) :
    ∀ l l', l.Perm l' → (l.map key).Nodup → sel l = sel l' := by
  intro l l' hp hn
  cases l with
  | nil =>
    cases l' with
    | nil => rfl
    | cons g' gs' => simpa using hp.length_eq
  | cons g gs =>
    cases l' with
    | nil => simpa using hp.length_eq
    | cons g' gs' =>
      rw [hsel, hsel]
      obtain ⟨hmem, hmax, _⟩ := selMax_head key g gs
      obtain ⟨hmem', hmax', _⟩ := selMax_head key g' gs'
      exact congrArg some
        (argmax_unique key (g :: gs) (g' :: gs') hp hn _ _ hmem hmem' hmax hmax')

/-- Claim C5: on every nonempty grid list, `balanced` returns a grid whose
distance of implied probability from 0.5 is minimal, and it is the first such
minimal grid in input order (all strictly earlier grids are strictly worse). -/
theorem C5_balanced_minimal (g : Grid) (gs : List Grid) :
    ∃ b, balanced (g :: gs) = some b
      ∧ (∀ x ∈ g :: gs, diffHalf b ≤ diffHalf x)
      ∧ ∃ l₁ l₂, g :: gs = l₁ ++ b :: l₂ ∧ ∀ x ∈ l₁, diffHalf b < diffHalf x := by
  refine ⟨selMin diffHalf g (g :: gs), rfl, ?_, ?_⟩
  · exact (selMin_spec diffHalf (g :: gs) g).1.2
  · rcases (selMin_spec diffHalf (g :: gs) g).2 with heq | ⟨l₁, l₂, hdec, _, hfirst⟩
    · exact ⟨[], gs, by rw [heq]; rfl, by simp⟩
    · exact ⟨l₁, l₂, hdec, hfirst⟩

/-- Witness for C5 at a concrete two-grid list: the selected grid's distance
of implied probability from 0.5 is minimal. -/
theorem C5_witness :
    balanced [gA, gB] = some (selMin diffHalf gA [gA, gB])
    ∧ diffHalf (selMin diffHalf gA [gA, gB]) ≤ diffHalf gA
    ∧ diffHalf (selMin diffHalf gA [gA, gB]) ≤ diffHalf gB := by
  obtain ⟨b, h1, h2, _⟩ := C5_balanced_minimal gA [gB]
  have h1' : some (selMin diffHalf gA [gA, gB]) = some b := h1
  have hb : b = selMin diffHalf gA [gA, gB] := (Option.some.inj h1').symm
  subst hb
  exact ⟨h1, h2 gA (by simp), h2 gB (by simp)⟩

/-- Claim C6: `underdog` and `value` are invariant under permutation of the
input when their comparison keys (odds, respectively odds × implied
probability) are pairwise distinct, and on ties the first maximal grid in
input order is returned (every strictly earlier grid has a strictly smaller
key). -/
theorem C6_reorder_invariance :
    (∀ l l' : List Grid, l.Perm l' → (l.map Grid.odds).Nodup →
        underdog l = underdog l')
    ∧ (∀ l l' : List Grid, l.Perm l' → (l.map evKey).Nodup →
        value l = value l')
    ∧ (∀ (g : Grid) (gs : List Grid), ∃ b, underdog (g :: gs) = some b
        ∧ (∀ x ∈ g :: gs, x.odds ≤ b.odds)
        ∧ ∃ l₁ l₂, g :: gs = l₁ ++ b :: l₂ ∧ ∀ x ∈ l₁, x.odds < b.odds)
    ∧ (∀ (g : Grid) (gs : List Grid), ∃ b, value (g :: gs) = some b
        ∧ (∀ x ∈ g :: gs, evKey x ≤ evKey b)
        ∧ ∃ l₁ l₂, g :: gs = l₁ ++ b :: l₂ ∧ ∀ x ∈ l₁, evKey x < evKey b) := by
  refine ⟨selMax_perm Grid.odds underdog (fun g gs => rfl),
    selMax_perm evKey value (fun g gs => rfl), ?_, ?_⟩
  · intro g gs
    obtain ⟨_, hmax, hfirst⟩ := selMax_head Grid.odds g gs
    exact ⟨selMax Grid.odds g (g :: gs), rfl, hmax, hfirst⟩
  · intro g gs
    obtain ⟨_, hmax, hfirst⟩ := selMax_head evKey g gs
    exact ⟨selMax evKey g (g :: gs), rfl, hmax, hfirst⟩

/-- Witness for C6: a concrete two-grid list with distinct odds and distinct
expected-value keys gives the same selection after swapping the inputs. -/
theorem C6_witness :
    underdog [gA, gB] = underdog [gB, gA]
    ∧ value [gA, gB] = value [gB, gA]
    ∧ gA.odds ≤ (selMax Grid.odds gA [gA, gB]).odds
    ∧ evKey gA ≤ evKey (selMax evKey gA [gA, gB]) := by
  have hperm : ([gA, gB]).Perm [gB, gA] := List.Perm.swap gB gA []
  have hodds : (([gA, gB]).map Grid.odds).Nodup := by
    norm_num [gA, gB, List.nodup_cons]
  have hev : (([gA, gB]).map evKey).Nodup := by
    norm_num [gA, gB, evKey, List.nodup_cons]
  refine ⟨C6_reorder_invariance.1 [gA, gB] [gB, gA] hperm hodds,
    C6_reorder_invariance.2.1 [gA, gB] [gB, gA] hperm hev, ?_, ?_⟩
  · obtain ⟨b, h1, h2, _⟩ := C6_reorder_invariance.2.2.1 gA [gB]
    have h1' : some (selMax Grid.odds gA [gA, gB]) = some b := h1
    have hb : b = selMax Grid.odds gA [gA, gB] := (Option.some.inj h1').symm
    subst hb
    exact h2 gA (by simp)
  · obtain ⟨b, h1, h2, _⟩ := C6_reorder_invariance.2.2.2 gA [gB]
    have h1' : some (selMax evKey gA [gA, gB]) = some b := h1
    have hb : b = selMax evKey gA [gA, gB] := (Option.some.inj h1').symm
    subst hb
    exact h2 gA (by simp)

/-! ## Falsy context values render as the placeholder default (claim C10) -/

/-- Claim C10: a recognised placeholder whose context value is present but
falsy (empty string, zero, `null`) renders exactly as if the value were
missing — its occurrences expand to `?`, never to an empty string or a zero
coming from the caller's falsy value. -/
theorem C10_falsy_defaults (m : Marker) (t : List Char) (ctx : Ctx) (v : JSVal)
    (hv : truthy v = false) :
    renderTemplate t (Ctx.set ctx m (some v))
      = renderTemplate t (Ctx.set ctx m none) := by
  have h : orQ (some v) = orQ none := by simp [orQ, hv]
  cases m <;> simp [renderTemplate, Ctx.set, h]

/-- Witness for C10: binding `asset` to the empty string renders the example
template exactly like leaving `asset` absent, producing `"? at ?"`. -/
theorem C10_witness :
    renderTemplate exT (Ctx.set ⟨none, none, none, none, none, none⟩ Marker.asset
        (some (JSVal.str [])))
      = renderTemplate exT (Ctx.set ⟨none, none, none, none, none, none⟩
          Marker.asset none)
    ∧ renderTemplate exT (Ctx.set ⟨none, none, none, none, none, none⟩ Marker.asset
        (some (JSVal.str []))) = ("? at ?").toList :=
  ⟨C10_falsy_defaults Marker.asset exT ⟨none, none, none, none, none, none⟩
      (JSVal.str []) (by decide), by decide⟩

/-! ## Sequential template replacement: supporting lemmas (claim C8) -/

/-- Fuel irrelevance for the replace loop: any sufficient fuel computes the
same result. -/
theorem replaceAllGo_congr (pat rep : List Char) :
    ∀ (f1 f2 : Nat) (s : List Char), s.length ≤ f1 → s.length ≤ f2 →
      replaceAllGo pat rep f1 s = replaceAllGo pat rep f2 s := by
  intro f1
  induction f1 with
  | zero =>
    intro f2 s h1 h2
    have hs : s = [] := List.eq_nil_of_length_eq_zero (Nat.le_zero.mp h1)
    subst hs
    cases f2 <;> rfl
  | succ f ih =>
    intro f2 s h1 h2
    cases s with
    | nil => cases f2 <;> rfl
    | cons c rest =>
      cases f2 with
      | zero => simp at h2
      | succ f2' =>
        simp only [replaceAllGo]
        simp only [List.length_cons] at h1 h2
        by_cases hcond : pat ≠ [] ∧ pat <+: (c :: rest)
        · rw [if_pos hcond, if_pos hcond]
          have hplen : 0 < pat.length := List.length_pos.mpr hcond.1
          have hd : (List.drop pat.length (c :: rest)).length ≤ f := by
            simp only [List.length_drop, List.length_cons]
            omega
          have hd2 : (List.drop pat.length (c :: rest)).length ≤ f2' := by
            simp only [List.length_drop, List.length_cons]
            omega
          rw [ih f2' _ hd hd2]
        · rw [if_neg hcond, if_neg hcond]
          rw [ih f2' rest (by omega) (by omega)]

/-- Head mismatch: a scan step that does not match copies one character. -/
theorem replaceAll_cons_neg (pat rep : List Char) (c : Char) (rest : List Char)
    (h : ¬ (pat ≠ [] ∧ pat <+: (c :: rest))) :
    replaceAll pat rep (c :: rest) = c :: replaceAll pat rep rest := by
  unfold replaceAll
  simp only [List.length_cons, replaceAllGo]
  rw [if_neg h]

/-- Head match: a scan step starting exactly at the pattern replaces it and
continues after it. -/
theorem replaceAll_append_self (pat rep rest : List Char) (hne : pat ≠ []) :
    replaceAll pat rep (pat ++ rest) = rep ++ replaceAll pat rep rest := by
  obtain ⟨p, ps, rfl⟩ : ∃ p ps, pat = p :: ps := by
    cases pat with
    | nil => exact absurd rfl hne
    | cons p ps => exact ⟨p, ps, rfl⟩
  unfold replaceAll
  rw [List.cons_append]
  have hlen : (p :: (ps ++ rest)).length = (ps ++ rest).length + 1 := by simp
  rw [hlen]
  simp only [replaceAllGo]
  rw [if_pos ⟨List.cons_ne_nil p ps, ⟨rest, by rw [List.cons_append]⟩⟩]
  congr 1
  rw [← List.cons_append, List.drop_left]
  exact replaceAllGo_congr _ _ _ _ rest (by simp) (le_refl _)

/-- A run free of the pattern's first character passes through a replace
unchanged, and no occurrence can start inside it. -/
theorem replaceAll_append_nb (pat rep : List Char) (p : Char) (ps : List Char)
    (hp : pat = p :: ps) :
    ∀ (a s : List Char), p ∉ a →
      replaceAll pat rep (a ++ s) = a ++ replaceAll pat rep s := by
  intro a
  induction a with
  | nil => intro s _; rfl
  | cons c a' ih =>
    intro s hna
    have hpc : p ≠ c := fun h => hna (h ▸ List.mem_cons_self c a')
    have hcond : ¬ (pat ≠ [] ∧ pat <+: (c :: (a' ++ s))) := by
      rintro ⟨-, t, ht⟩
      rw [hp, List.cons_append] at ht
      injection ht with h1 _
      exact hpc h1
    rw [List.cons_append, replaceAll_cons_neg _ _ _ _ hcond,
      ih s (fun h => hna (List.mem_cons_of_mem c h))]
    rfl

/-- Core of the non-interference argument: a closing-brace-free name followed
by a closing brace is never a prefix of a different closing-brace-free name
followed by a closing brace, whatever comes after. -/
theorem name_no_match :
    ∀ (n pname rest : List Char), n ≠ pname → rbrace ∉ n → rbrace ∉ pname →
      ¬ ((pname ++ [rbrace]) <+: (n ++ rbrace :: rest)) := by
  intro n
  induction n with
  | nil =>
    intro pname rest hne h1 h2
    cases pname with
    | nil => exact absurd rfl hne
    | cons q qs =>
      rintro ⟨t, ht⟩
      simp only [List.cons_append, List.nil_append] at ht
      injection ht with h1' _
      exact h2 (h1' ▸ List.mem_cons_self q qs)
  | cons a n' ih =>
    intro pname rest hne h1 h2
    cases pname with
    | nil =>
      rintro ⟨t, ht⟩
      simp only [List.nil_append, List.singleton_append] at ht
      injection ht with h1' _
      exact h1 (h1' ▸ List.mem_cons_self a n')
    | cons b p' =>
      rintro ⟨t, ht⟩
      simp only [List.cons_append] at ht
      injection ht with hab htail
      subst hab
      refine ih p' rest ?_ ?_ ?_ ⟨t, htail⟩
      · intro h
        exact hne (by rw [h])
      · exact fun h => h1 (List.mem_cons_of_mem _ h)
      · exact fun h => h2 (List.mem_cons_of_mem _ h)

/-- A marker pattern never matches at the opening brace of a marker with a
different name. -/
theorem braced_no_prefix (n pname rest : List Char)
    (hne : n ≠ pname) (h1 : rbrace ∉ n) (h2 : rbrace ∉ pname) :
    ¬ (braced pname <+: (braced n ++ rest)) := by
  rintro ⟨t, ht⟩
  simp only [braced, List.cons_append, List.append_assoc] at ht
  injection ht with _ htail
  refine name_no_match n pname rest hne h1 h2 ⟨t, ?_⟩
  simpa [List.append_assoc] using htail

/-- Names are recoverable from their bracing. -/
theorem braced_inj (n m : List Char) (h : braced n = braced m) : n = m := by
  simp only [braced] at h
  injection h with _ h'
  exact List.append_left_injective [rbrace] h'

/-- One replace pass over a concatenation of well-shaped chunks replaces
exactly the chunks equal to the pattern and leaves every other chunk
untouched. -/
theorem replaceAll_chunks (pname rep : List Char) (hpn : rbrace ∉ pname) :
    ∀ (cs : List (List Char)), (∀ c ∈ cs, chunkOK pname c) →
      replaceAll (braced pname) rep cs.flatten
        = (cs.map (fun c => if c = braced pname then rep else c)).flatten := by
  intro cs
  induction cs with
  | nil => intro _; rfl
  | cons c cs' ih =>
    intro hOK
    have hc := hOK c (List.mem_cons_self c cs')
    have hrest : ∀ x ∈ cs', chunkOK pname x :=
      fun x hx => hOK x (List.mem_cons_of_mem c hx)
    rw [List.flatten_cons, List.map_cons, List.flatten_cons]
    rcases hc with hceq | hnb | ⟨n, hcn, hne, hn1, hn2⟩
    · subst hceq
      rw [if_pos rfl, replaceAll_append_self _ _ _ (by simp [braced]), ih hrest]
    · have hcne : c ≠ braced pname := by
        intro h
        rw [h] at hnb
        exact hnb (by simp [braced])
      rw [if_neg hcne,
        replaceAll_append_nb (braced pname) rep lbrace (pname ++ [rbrace]) rfl c _ hnb,
        ih hrest]
    · subst hcn
      have hcne : braced n ≠ braced pname := fun h => hne (braced_inj n pname h)
      rw [if_neg hcne]
      have hnm : ¬ ((braced pname) ≠ [] ∧
          (braced pname) <+: (lbrace :: ((n ++ [rbrace]) ++ cs'.flatten))) := by
        rintro ⟨-, hpre⟩
        exact braced_no_prefix n pname cs'.flatten hne hn2 hpn hpre
      have hnlb : lbrace ∉ n ++ [rbrace] := by
        intro h
        rcases List.mem_append.mp h with h' | h'
        · exact hn1 h'
        · simp only [List.mem_singleton] at h'
          exact absurd h' (by decide)
      calc replaceAll (braced pname) rep (braced n ++ cs'.flatten)
          = replaceAll (braced pname) rep
              (lbrace :: ((n ++ [rbrace]) ++ cs'.flatten)) := by
            simp [braced]
        _ = lbrace :: replaceAll (braced pname) rep
              ((n ++ [rbrace]) ++ cs'.flatten) :=
            replaceAll_cons_neg _ _ _ _ hnm
        _ = lbrace :: ((n ++ [rbrace])
              ++ replaceAll (braced pname) rep cs'.flatten) := by
            rw [replaceAll_append_nb (braced pname) rep lbrace (pname ++ [rbrace])
              rfl (n ++ [rbrace]) _ hnlb]
        _ = braced n ++ (cs'.map
              (fun c => if c = braced pname then rep else c)).flatten := by
            rw [ih hrest]
            simp [braced]

/-- Marker names are pairwise distinct. -/
theorem markerName_inj : ∀ a b : Marker, markerName a = markerName b → a = b := by
  intro a b
  cases a <;> cases b <;> decide

/-- Marker names contain no brace. -/
theorem markerName_nb : ∀ m : Marker, lbrace ∉ markerName m ∧ rbrace ∉ markerName m := by
  intro m
  cases m <;> decide

/-- Shape of a partially substituted token as a chunk, for the next marker's
pass. -/
theorem substUpTo_chunkOK (ctx : Ctx) (hctx : ctxOK ctx) (done : List Marker)
    (m' : Marker) (x : Tok) (hx : TokOK x) :
    chunkOK (markerName m') (substUpTo done ctx x) := by
  cases x with
  | lit s => exact Or.inr (Or.inl hx)
  | mark m =>
    by_cases hmem : m ∈ done
    · simp only [substUpTo, if_pos hmem]
      exact Or.inr (Or.inl (hctx m).1)
    · simp only [substUpTo, if_neg hmem]
      by_cases hm : m = m'
      · subst hm
        exact Or.inl rfl
      · exact Or.inr (Or.inr ⟨markerName m, rfl,
          fun h => hm (markerName_inj m m' h), (markerName_nb m).1,
          (markerName_nb m).2⟩)
  | unk n =>
    obtain ⟨-, hn1, hn2, hn3⟩ := hx
    exact Or.inr (Or.inr ⟨n, rfl, hn3 m', hn1, hn2⟩)

/-- Effect of one marker's pass on a partially substituted token. -/
theorem substUpTo_step (ctx : Ctx) (hctx : ctxOK ctx) (done : List Marker)
    (m' : Marker) (hmd : m' ∉ done) (x : Tok) (hx : TokOK x) :
    (if substUpTo done ctx x = braced (markerName m')
      then orQ (Ctx.get ctx m') else substUpTo done ctx x)
      = substUpTo (done ++ [m']) ctx x := by
  cases x with
  | lit s =>
    have : s ≠ braced (markerName m') := by
      intro h
      rw [h] at hx
      exact hx (by simp [braced])
    simp only [substUpTo, if_neg this]
  | mark m =>
    by_cases hmem : m ∈ done
    · have hval : orQ (Ctx.get ctx m) ≠ braced (markerName m') := by
        intro h
        have := (hctx m).1
        rw [h] at this
        exact this (by simp [braced])
      have hmem' : m ∈ done ++ [m'] := List.mem_append_left _ hmem
      simp only [substUpTo, if_pos hmem, if_neg hval, if_pos hmem']
    · by_cases hm : m = m'
      · subst hm
        have hmem' : m ∈ done ++ [m] := List.mem_append_right _ (by simp)
        simp [substUpTo, if_neg hmem, markerPat, hmem']
      · have hpat : markerPat m ≠ braced (markerName m') := by
          intro h
          exact hm (markerName_inj m m' (braced_inj _ _ h))
        have hmem' : m ∉ done ++ [m'] := by
          intro h
          rcases List.mem_append.mp h with h' | h'
          · exact hmem h'
          · simp only [List.mem_singleton] at h'
            exact hm h'
        simp only [substUpTo, if_neg hmem, if_neg hpat, if_neg hmem']
  | unk n =>
    obtain ⟨-, -, -, hn3⟩ := hx
    have : braced n ≠ braced (markerName m') :=
      fun h => hn3 m' (braced_inj _ _ h)
    simp only [substUpTo, if_neg this]

/-- The sequential passes over the remaining markers complete the pending
substitutions, provided values are plain and tokens well-formed. -/
theorem foldSubst (ctx : Ctx) (hctx : ctxOK ctx) (ts : List Tok)
    (hts : ∀ x ∈ ts, TokOK x) :
    ∀ (ms done : List Marker), (done ++ ms).Nodup →
      List.foldl (fun s m => replaceAll (markerPat m) (orQ (Ctx.get ctx m)) s)
        ((ts.map (substUpTo done ctx)).flatten) ms
      = (ts.map (substUpTo (done ++ ms) ctx)).flatten := by
  intro ms
  induction ms with
  | nil =>
    intro done _
    simp
  | cons m' ms' ih =>
    intro done hnd
    have hmd : m' ∉ done := by
      rw [List.nodup_append] at hnd
      exact fun h => hnd.2.2 h (List.mem_cons_self m' ms')
    rw [List.foldl_cons]
    have hstep : replaceAll (markerPat m') (orQ (Ctx.get ctx m'))
        ((ts.map (substUpTo done ctx)).flatten)
        = (ts.map (substUpTo (done ++ [m']) ctx)).flatten := by
      rw [show markerPat m' = braced (markerName m') from rfl,
        replaceAll_chunks (markerName m') _ (markerName_nb m').2 _ ?_, List.map_map]
      · congr 1
        apply List.map_congr_left
        intro x hx
        exact substUpTo_step ctx hctx done m' hmd x (hts x hx)
      · intro ch hch
        rw [List.mem_map] at hch
        obtain ⟨x, hx, rfl⟩ := hch
        exact substUpTo_chunkOK ctx hctx done m' x (hts x hx)
    rw [hstep]
    have hnd' : ((done ++ [m']) ++ ms').Nodup := by
      simpa [List.append_assoc] using hnd
    have := ih (done ++ [m']) hnd'
    simpa [List.append_assoc] using this

/-- Before any pass, a token shows its raw text. -/
theorem substUpTo_nil_eq_flat (ctx : Ctx) (x : Tok) :
    substUpTo [] ctx x = Tok.flat x := by
  cases x <;> simp [substUpTo, Tok.flat, markerPat]

/-- After all six passes, a token shows its full substitution. -/
theorem substUpTo_full (ctx : Ctx) (x : Tok) :
    substUpTo markerOrder ctx x = substTok ctx x := by
  cases x with
  | lit s => rfl
  | mark m =>
    have : m ∈ markerOrder := by cases m <;> decide
    simp [substUpTo, substTok, this]
  | unk n => rfl

/-- A token list with empty raw text substitutes to the empty string. -/
theorem flatten_substTok_nil (ctx : Ctx) :
    ∀ ts : List Tok, flatToks ts = [] → (ts.map (substTok ctx)).flatten = [] := by
  intro ts
  induction ts with
  | nil => intro _; rfl
  | cons x ts' ih =>
    intro h
    simp only [flatToks, List.map_cons, List.flatten_cons,
      List.append_eq_nil] at h
    obtain ⟨hx, hts'⟩ := h
    have hx' : substTok ctx x = [] := by
      cases x with
      | lit s => exact hx
      | mark m => exact absurd hx (by simp [Tok.flat, markerPat, braced])
      | unk n => exact absurd hx (by simp [Tok.flat, braced])
    simp only [List.map_cons, List.flatten_cons, hx', List.nil_append]
    exact ih hts'

/-- The six sequential replaces of the source, as a fold over the marker
order. -/
theorem renderTemplate_foldl (t : List Char) (ctx : Ctx) (h0 : t ≠ []) :
    renderTemplate t ctx = List.take 500
      (List.foldl (fun s m => replaceAll (markerPat m) (orQ (Ctx.get ctx m)) s)
        t markerOrder) := by
  unfold renderTemplate
  rw [if_neg h0]
  rfl

/-! ## Sequential rendering equals simultaneous substitution on well-formed
templates (claim C8) -/

/-- Claim C8, amended: `render` performs the six global replaces sequentially
in the order round, price, asset, odds, gridLevel, strategy followed by
truncation to 500 characters, so a substituted value may combine with the
surrounding template text into a later marker which is then also substituted
(see the counterexample); on every template that is a concatenation of
brace-free literal runs, the six markers, and unknown simple markers, with
every substituted context value free of braces and dollar signs, the result
is exactly the simultaneous substitution the claim describes — each marker
occurrence becomes its context value or `?`, unknown markers stay verbatim,
and the result is truncated to 500 characters; the spec's example renders
`"{asset} at {price}"` with only `asset` bound to `"BTC"` as `"BTC at ?"`. -/
theorem C8_render_tokens :
    (∀ (ts : List Tok) (ctx : Ctx), (∀ x ∈ ts, TokOK x) → ctxOK ctx →
        renderTemplate (flatToks ts) ctx
          = List.take 500 ((ts.map (substTok ctx)).flatten))
    ∧ renderTemplate exT exCtx = ("BTC at ?").toList := by
  constructor
  · intro ts ctx hts hctx
    by_cases h0 : flatToks ts = []
    · rw [h0]
      rw [flatten_substTok_nil ctx ts h0]
      rfl
    · rw [renderTemplate_foldl _ ctx h0]
      have hstart : flatToks ts = (ts.map (substUpTo [] ctx)).flatten :=
        congrArg List.flatten
          (List.map_congr_left (fun x _ => (substUpTo_nil_eq_flat ctx x).symm))
      rw [hstart]
      rw [foldSubst ctx hctx ts hts markerOrder [] (by decide)]
      have hmap : ts.map (substUpTo ([] ++ markerOrder) ctx)
          = ts.map (substTok ctx) :=
        List.map_congr_left (fun x _ => substUpTo_full ctx x)
      rw [hmap]
  · decide

/-- Witness for C8: the example template as a token list satisfies the
well-formedness hypotheses, and rendering agrees with the simultaneous
substitution. -/
theorem C8_witness :
    renderTemplate (flatToks exToks) exCtx
      = List.take 500 ((exToks.map (substTok exCtx)).flatten)
    ∧ renderTemplate exT exCtx = ("BTC at ?").toList :=
  ⟨C8_render_tokens.1 exToks exCtx
      (by
        intro x hx
        simp only [exToks, List.mem_cons, List.not_mem_nil, or_false] at hx
        rcases hx with rfl | rfl | rfl
        · exact trivial
        · exact (by decide : lbrace ∉ ((" at ").toList))
        · exact trivial)
      (by
        intro m
        show lbrace ∉ orQ (Ctx.get exCtx m) ∧ rbrace ∉ orQ (Ctx.get exCtx m)
          ∧ '$' ∉ orQ (Ctx.get exCtx m)
        cases m <;> exact ⟨by decide, by decide, by decide⟩),
    C8_render_tokens.2⟩

/-- Counterexample for C8 as stated: on the template `"{pri{round}e}"` with
`round` bound to `"c"`, the sequential code substitutes the `{round}` marker,
the result assembles `"{price}"`, and the later price pass replaces it by
`?`; simultaneous substitution as the claim reads would leave `"{price}"`
verbatim. -/
theorem C8_cex :
    renderTemplate cexT cexCtx ≠ List.take 500 (renderSpec cexT cexCtx)
    ∧ renderTemplate cexT cexCtx = ("?").toList
    ∧ renderSpec cexT cexCtx = braced (("price").toList) := by
  refine ⟨by decide, by decide, by decide⟩

end PredictMe
